import Mathlib

/-!
Shallow embedding of the crablit quiz-session engine (src/src/lib.rs) and
proofs of the specification claims about it.

The repository ships only `lib.rs`; the `cards`, `enums` and `state`
modules (the `Card` struct with its `incr`/`decr`/`swap`/`lok`/`correct`
operations, the `Lok` classifier and the progress persistence helpers)
are declared there but their sources are not present.  Those parts are
modelled from the specification, and each such definition says so in its
doc comment.  Everything else is translated directly from `lib.rs`:
`hint`, `swap_cards`, `init`, the `question` session loop and the
`run` repetition controller (Cards mode).

Strings of the deck are kept as Lean `String`s; character-level facts
(the `hint` function) are stated over `String.toList`, which is the
sequence of Unicode characters, matching Rust's `chars()`.
-/

namespace Crablit

/-- Modelled from the spec: tri-state mastery status (`enums::Lok` is not
in the sources).  `New` = counter at its floor, `Learning` = strictly
between floor and threshold, `Done` = counter at or above threshold. -/
inductive Lok where
  | New : Lok
  | Learning : Lok
  | Done : Lok
deriving DecidableEq, Repr

/-- Modelled from the spec: the mastery threshold is a named
configuration constant; the spec suggests the value 2. -/
def threshold : Nat := 2

/-- Modelled from the spec: a `Card` (module `cards` is not in the
sources) carries a term, a definition, an optional annotation (field
`note` here) and a non-negative mastery counter. -/
structure Card where
  term : String
  definition : String
  note : Option String
  counter : Nat
deriving DecidableEq, Repr

/-- Modelled from the spec: pure classifier of the mastery counter. -/
def Card.lok (c : Card) : Lok :=
  if c.counter = 0 then Lok.New
  else if c.counter < threshold then Lok.Learning
  else Lok.Done

/-- Modelled from the spec: `incr()` adjusts the counter by +1. -/
def Card.incr (c : Card) : Card :=
  { c with counter := c.counter + 1 }

/-- Modelled from the spec: `decr()` adjusts the counter by -1, clamped
at zero on the low end (`Nat` subtraction is exactly this clamp). -/
def Card.decr (c : Card) : Card :=
  { c with counter := c.counter - 1 }

/-- Modelled from the spec: `swap()` exchanges term and definition
atomically, leaving annotation and counter untouched. -/
def Card.swap (c : Card) : Card :=
  { c with term := c.definition, definition := c.term }

/-- Modelled from the spec: `correct()` is the expected verbatim answer,
i.e. the card's definition (after any swap). -/
def Card.correct (c : Card) : String :=
  c.definition

/-- From `lib.rs` (`pub fn hint`): keep the first `chars().count() / 2`
characters, replace each remaining character by `'_'`.  Stated on the
character list, matching Rust's `chars()` iterator. -/
def hint (s : List Char) : List Char :=
  let n := s.length / 2
  (s.take n) ++ ((s.drop n).map (fun _ => '_'))

/-- String-level wrapper of `hint`, packaging the character list back
into a string as the Rust code's `concat()` does. -/
def hintStr (s : String) : String :=
  String.mk (hint s.toList)

/-- From `lib.rs` (`pub fn swap_cards`): swap every card of the deck. -/
def swap_cards (cards : List Card) : List Card :=
  cards.map Card.swap

/-- Rust's `str::trim`: strip leading and trailing whitespace.  Written
on the character list so that it is kernel-computable (Lean's own
`String.trim` walks byte positions and does not reduce). -/
def trimChars (s : List Char) : List Char :=
  ((s.dropWhile Char.isWhitespace).reverse.dropWhile Char.isWhitespace).reverse

/-- String-level wrapper of `trimChars`, the model of `str::trim`. -/
def strTrim (s : String) : String :=
  String.mk (trimChars s.toList)

/-- Rust's `str::starts_with`: character-list model of the test whether
`pre` is a leading piece of `s`. -/
def strStartsWith (s pre : String) : Bool :=
  pre.toList.isPrefixOf s.toList

/-- From `lib.rs` line 92–93: the question text is suppressed when the
last history entry satisfies this condition (`starts_with(":h")`, or is
exactly `":typo"`, `":n"`, `":num"` or `":togo"`). -/
def suppress (he : String) : Bool :=
  strStartsWith he ":h" || he == ":typo" || he == ":n" || he == ":num" || he == ":togo"

/-- Whether the question text is shown given the last history entry:
`last_hr.is_some_and(cond)` selects the empty prefix, otherwise the
question is printed (`lib.rs` lines 90–99). -/
def shownOf : Option String → Bool
  | some he => !(suppress he)
  | none => true

/-- Control signal of one dispatched input, abstracting the source's
in-place control flow: `cont` continues the loop, `exitP` is the
`exit(0)` process termination, `revise` is the `break` of `:revise`. -/
inductive Sig where
  | cont : Sig
  | exitP : Sig
  | revise : Sig
deriving DecidableEq, Repr

/-- How one pass of the session loop ended. -/
inductive PassEnd where
  | completed : PassEnd
  | revised : PassEnd
  | exitProc : PassEnd
  | inputErr : PassEnd
deriving DecidableEq, Repr

/-- Observable events of a run: a prompt at deck index `i` (recording the
last history entry at prompt time and whether the question text was
shown), a shuffle, and the removal of the saved-progress artifact. -/
inductive Event where
  | prompt : Nat → Option String → Bool → Event
  | shuffleEv : Event
  | rmProg : Event
deriving DecidableEq, Repr

/-- Result of one pass of the session loop. -/
structure PassOut where
  deck : List Card
  res : PassEnd
  trace : List Event
deriving DecidableEq, Repr

/-- Length of the leading run of `Done` cards of a list. -/
def countLeadingDone : List Card → Nat
  | [] => 0
  | c :: rest => if c.lok == Lok.Done then countLeadingDone rest + 1 else 0

/-- Cursor position after the silent-skip steps of the session loop
(`lib.rs` lines 82–85): starting at `i`, advance past every consecutive
`Done` card. -/
def skipDone (v : List Card) (i : Nat) : Nat :=
  i + countLeadingDone (v.drop i)

/-- Dispatch of one trimmed input line `g` at cursor `i` on deck `v`
(`lib.rs` lines 106–176); `item` is the current card `v[i]`.  Returns
the updated deck, the updated cursor, and the control signal.  Pure
effects (printing, saving progress) are dropped; deck and cursor
updates are kept verbatim. -/
def dispatch (v : List Card) (i : Nat) (item : Card) (g : String) :
    List Card × Nat × Sig :=
  if strStartsWith g ":" then
    if g == ":q" || g == ":quit" || g == ":exit" then (v, i, Sig.exitP)
    else if g == ":h" || g == ":help" || g == ":hint" then (v, i, Sig.cont)
    else if g == ":w" || g == ":write" || g == ":save" then (v, i, Sig.cont)
    else if g == ":wq" then (v, i, Sig.exitP)
    else if g == ":typo" then
      if 0 < i then
        match v[i - 1]? with
        | some prev => (v.set (i - 1) prev.incr, i, Sig.cont)
        | none => (v, i, Sig.cont)
      else (v, i, Sig.cont)
    else if g == ":skip" then (v, i + 1, Sig.cont)
    else if g == ":revise" then (v, i, Sig.revise)
    else if g == ":f" || g == ":flash" then (v.set i item.incr, i + 1, Sig.cont)
    else if g == ":n" || g == ":num" || g == ":togo" then (v, i, Sig.cont)
    else (v, i, Sig.cont)
  else if g == item.correct then (v.set i item.incr, i + 1, Sig.cont)
  else (v.set i item.decr, i + 1, Sig.cont)

/-- The `question` session loop of `lib.rs` (lines 71–179), driven by the
list `ins` of raw input lines the user will type.  `hist` is the line
history, most recent first (a fresh editor starts each pass, so a pass
starts with `[]`).  Exhausting `ins` while a card still needs asking
models `readline` failing, which the source propagates as an error. -/
def questionGo : List String → List Card → Nat → List String → PassOut
  | [], v, i, _ =>
      if skipDone v i < v.length then ⟨v, PassEnd.inputErr, []⟩
      else ⟨v, PassEnd.completed, []⟩
  | raw :: rest, v, i, hist =>
      let j := skipDone v i
      if h : j < v.length then
        let item := v.get ⟨j, h⟩
        let ev := Event.prompt j hist.head? (shownOf hist.head?)
        match dispatch v j item (strTrim raw) with
        | (v', i', Sig.cont) =>
            let r := questionGo rest v' i' (raw :: hist)
            ⟨r.deck, r.res, ev :: r.trace⟩
        | (v', _, Sig.exitP) => ⟨v', PassEnd.exitProc, [ev]⟩
        | (v', _, Sig.revise) => ⟨v', PassEnd.revised, [ev]⟩
      else ⟨v, PassEnd.completed, []⟩

/-- One pass of the session loop started at cursor 0 with empty history. -/
def questionRun (v : List Card) (ins : List String) : PassOut :=
  questionGo ins v 0 []

/-- Claim C7: for every deck, applying the whole-deck swap transform twice restores
every card to its original value, and a single swap exchanges exactly the
term/definition roles of each card, leaving annotation and counter
untouched. -/
theorem claim_C7 (v : List Card) :
    swap_cards (swap_cards v) = v ∧
      ∀ c : Card, (Card.swap c).term = c.definition ∧
        (Card.swap c).definition = c.term ∧
        (Card.swap c).note = c.note ∧
        (Card.swap c).counter = c.counter := by
  constructor
  · induction v with
    | nil => rfl
    | cons c rest ih =>
        simp only [swap_cards, List.map_cons] at *
        simp [Card.swap, ih]
  · intro c
    simp [Card.swap]

/-- Claim C8: for every card whose counter is 0, `decr()` leaves the counter at 0;
more generally `decr()` lowers the counter by one clamped at zero and
`incr()` raises it by exactly one. -/
theorem claim_C8 (c : Card) :
    (c.counter = 0 → (Card.decr c).counter = 0) ∧
      (Card.decr c).counter = c.counter - 1 ∧
      (Card.incr c).counter = c.counter + 1 := by
  refine ⟨fun h => ?_, rfl, rfl⟩
  simp [Card.decr, h]

/-- Witness for C8 at a concrete zero-counter card. -/
theorem claim_C8_witness :
    (Card.decr (Card.mk "a" "b" none 0)).counter = 0 :=
  (claim_C8 (Card.mk "a" "b" none 0)).1 rfl

/-- Claim C4: `hint` preserves the character count, keeps the first `⌊len/2⌋`
characters of the input unchanged, and replaces every remaining
character by the mask character `'_'`.  Characters are Unicode scalar
values (`String.toList`), not bytes. -/
theorem claim_C4 (s : String) :
    (hintStr s).length = s.length ∧
      (hintStr s).toList.take (s.length / 2) = s.toList.take (s.length / 2) ∧
      ∀ c ∈ (hintStr s).toList.drop (s.length / 2), c = '_' := by
  have hlist : (hintStr s).toList = hint s.toList := rfl
  have hslen : s.length = s.toList.length := rfl
  have hn : s.toList.length / 2 ≤ s.toList.length := Nat.div_le_self _ _
  have htake : (hint s.toList).take (s.toList.length / 2) =
      s.toList.take (s.toList.length / 2) := by
    unfold hint
    rw [List.take_append_of_le_length (by simp [Nat.min_eq_left hn]; exact Nat.div_le_self _ _)]
    rw [List.take_take, Nat.min_self]
  have hlen : (hint s.toList).length = s.toList.length := by
    unfold hint
    simp [Nat.min_eq_left hn]
    omega
  have hdrop : (hint s.toList).drop (s.toList.length / 2) =
      (s.toList.drop (s.toList.length / 2)).map (fun _ => '_') := by
    unfold hint
    rw [List.drop_append_of_le_length (by simp [Nat.min_eq_left hn]; exact Nat.div_le_self _ _)]
    simp [Nat.min_eq_left hn]
  refine ⟨?_, ?_, ?_⟩
  · show (hint s.toList).length = s.length
    rw [hlen, hslen]
  · rw [hlist, hslen, htake]
  · intro c hc
    rw [hlist, hslen, hdrop] at hc
    rcases List.mem_map.mp hc with ⟨a, _, rfl⟩
    rfl

/-- Claim C1: a plain (non-command) input line, once trimmed, is compared
by exact string equality against the current card's `correct()` answer;
on a match the card's counter is incremented by one and the cursor
advances, on a mismatch the counter is decremented by one (clamped at
zero by the `Nat` counter) and the cursor still advances, so the card is
not re-asked in place.  The classification as command versus guess is
done on the trimmed line, as in the source. -/
theorem claim_C1 (v : List Card) (i : Nat) (item : Card) (raw : String)
    (_hitem : v[i]? = some item)
    (hg : strStartsWith (strTrim raw) ":" = false) :
    (strTrim raw = item.correct →
        dispatch v i item (strTrim raw) = (v.set i item.incr, i + 1, Sig.cont) ∧
          (Card.incr item).counter = item.counter + 1) ∧
      (strTrim raw ≠ item.correct →
        dispatch v i item (strTrim raw) = (v.set i item.decr, i + 1, Sig.cont) ∧
          (Card.decr item).counter = item.counter - 1) := by
  constructor
  · intro he
    rw [he] at hg
    refine ⟨?_, rfl⟩
    simp [dispatch, hg, he]
  · intro he
    refine ⟨?_, rfl⟩
    simp [dispatch, hg, he]

/-- Witness for C1: the line `" a "` trims to the correct answer of the
card, the counter is credited and the cursor advances. -/
theorem claim_C1_witness :
    dispatch [Card.mk "q" "a" none 0] 0 (Card.mk "q" "a" none 0) (strTrim " a ") =
        ([Card.mk "q" "a" none 0].set 0 (Card.mk "q" "a" none 0).incr, 0 + 1, Sig.cont) ∧
      (Card.incr (Card.mk "q" "a" none 0)).counter = (Card.mk "q" "a" none 0).counter + 1 :=
  (claim_C1 [Card.mk "q" "a" none 0] 0 (Card.mk "q" "a" none 0) " a "
    (by decide) (by decide)).1 (by decide)

/-- Claim C5, amended: on `:typo` the code re-credits the card at deck
position `i - 1` whenever the cursor `i` is positive — regardless of
whether that card ever received a substantive answer — and the cursor
does not advance; only when the cursor is 0 is the "nothing to correct"
notice emitted, with no state change. -/
theorem claim_C5_amended (v : List Card) (i : Nat) (item : Card) :
    (∀ prev, v[i - 1]? = some prev → 0 < i →
        dispatch v i item ":typo" = (v.set (i - 1) prev.incr, i, Sig.cont)) ∧
      (i = 0 → dispatch v i item ":typo" = (v, i, Sig.cont)) := by
  constructor
  · intro prev hprev hpos
    cases i with
    | zero => exact absurd hpos (by omega)
    | succ n =>
        simp only [Nat.add_sub_cancel] at hprev ⊢
        simp [dispatch, strStartsWith, hprev]
  · intro h0
    subst h0
    rfl

/-- Witness for C5 (amended) at a concrete two-card deck with the cursor
at position 1. -/
theorem claim_C5_witness :
    dispatch [Card.mk "x" "y" none 0, Card.mk "q" "a" none 0] 1
        (Card.mk "q" "a" none 0) ":typo" =
      ([Card.mk "x" "y" none 0, Card.mk "q" "a" none 0].set 0
          (Card.mk "x" "y" none 0).incr, 1, Sig.cont) :=
  (claim_C5_amended [Card.mk "x" "y" none 0, Card.mk "q" "a" none 0] 1
    (Card.mk "q" "a" none 0)).1 (Card.mk "x" "y" none 0) (by decide) (by decide)

/-- Counterexample to C5 as stated: in the deck `[q1 (Done), q2 (New)]`
with input `[":typo"]`, the only prompt of the pass is at index 1, so no
previous card ever received a substantive answer; the claim then demands
a "nothing to correct" notice and no state change, but the code
increments the counter of the skipped `Done` card at index 0 from 2
to 3. -/
theorem claim_C5_counterexample :
    (Card.mk "q1" "a1" none 2).lok = Lok.Done ∧
      (questionRun [Card.mk "q1" "a1" none 2, Card.mk "q2" "a2" none 0]
          [":typo"]).trace = [Event.prompt 1 none true] ∧
      (questionRun [Card.mk "q1" "a1" none 2, Card.mk "q2" "a2" none 0]
          [":typo"]).deck[0]? = some (Card.mk "q1" "a1" none 3) := by
  decide

lemma skipDone_ge (v : List Card) (i : Nat) : i ≤ skipDone v i :=
  Nat.le_add_right _ _

lemma countLeadingDone_spec (l : List Card) (h : countLeadingDone l < l.length) :
    ∃ c, l[countLeadingDone l]? = some c ∧ c.lok ≠ Lok.Done := by
  induction l with
  | nil => simp at h
  | cons c rest ih =>
      by_cases hd : c.lok == Lok.Done
      · simp only [countLeadingDone, hd, if_true] at h ⊢
        simp only [List.length_cons, Nat.add_lt_add_iff_right] at h
        simpa using ih h
      · simp only [countLeadingDone, hd, if_false]
        exact ⟨c, by simp, by simpa using hd⟩

lemma skipDone_not_done (v : List Card) (i : Nat) (h : skipDone v i < v.length) :
    ∃ c, v[skipDone v i]? = some c ∧ c.lok ≠ Lok.Done := by
  have hlt : countLeadingDone (v.drop i) < (v.drop i).length := by
    rw [List.length_drop]
    unfold skipDone at h
    omega
  obtain ⟨c, hc, hnd⟩ := countLeadingDone_spec (v.drop i) hlt
  rw [List.getElem?_drop] at hc
  exact ⟨c, hc, hnd⟩

lemma dispatch_bounds (v : List Card) (i : Nat) (item : Card) (g : String)
    (v' : List Card) (i' : Nat) (sig : Sig)
    (hd : dispatch v i item g = (v', i', sig)) :
    i ≤ i' ∧ v'.length = v.length ∧ ∀ k, i' ≤ k → v'[k]? = v[k]? := by
  unfold dispatch at hd
  repeat' split at hd
  all_goals
    simp only [Prod.mk.injEq] at hd
  all_goals
    obtain ⟨rfl, rfl, rfl⟩ := hd
  all_goals
    first
      | exact ⟨Nat.le_refl _, rfl, fun k _ => rfl⟩
      | exact ⟨Nat.le_succ _, rfl, fun k _ => rfl⟩
      | exact ⟨Nat.le_succ _, by simp, fun k hk => List.getElem?_set_ne (by omega)⟩
      | exact ⟨Nat.le_refl _, by simp, fun k hk => List.getElem?_set_ne (by omega)⟩

lemma questionGo_prompts :
    ∀ (ins : List String) (v : List Card) (i : Nat) (hist : List String)
      (j : Nat) (h : Option String) (s : Bool),
      Event.prompt j h s ∈ (questionGo ins v i hist).trace →
      i ≤ j ∧ ∃ c, v[j]? = some c ∧ c.lok ≠ Lok.Done := by
  intro ins
  induction ins with
  | nil =>
      intro v i hist j h s hmem
      unfold questionGo at hmem
      split at hmem <;> simp at hmem
  | cons raw rest ih =>
      intro v i hist j h s hmem
      unfold questionGo at hmem
      dsimp only at hmem
      split at hmem
      case isTrue hlt =>
        rcases hdp : dispatch v (skipDone v i)
            (v.get ⟨skipDone v i, hlt⟩) (strTrim raw) with ⟨v', i', sig⟩
        have hb := dispatch_bounds v (skipDone v i)
          (v.get ⟨skipDone v i, hlt⟩) (strTrim raw) v' i' sig hdp
        rw [hdp] at hmem
        have hhead : i ≤ skipDone v i ∧
            ∃ c, v[skipDone v i]? = some c ∧ c.lok ≠ Lok.Done :=
          ⟨skipDone_ge v i, skipDone_not_done v i hlt⟩
        cases sig with
        | cont =>
            simp only [List.mem_cons] at hmem
            rcases hmem with he | hm
            · obtain ⟨rfl, -, -⟩ := Event.prompt.inj he
              exact hhead
            · obtain ⟨hij, c, hcj, hnd⟩ := ih v' i' (raw :: hist) j h s hm
              obtain ⟨hb1, hb2, hb3⟩ := hb
              have hsg := skipDone_ge v i
              refine ⟨by omega, c, ?_, hnd⟩
              rw [hb3 j (by omega)] at hcj
              exact hcj
        | exitP =>
            simp only [List.mem_singleton] at hmem
            obtain ⟨rfl, -, -⟩ := Event.prompt.inj hmem
            exact hhead
        | revise =>
            simp only [List.mem_singleton] at hmem
            obtain ⟨rfl, -, -⟩ := Event.prompt.inj hmem
            exact hhead
      case isFalse hge =>
        simp at hmem

/-- Claim C3: a card that is classified `Done` at the start of a pass is
never prompted during that pass; prompts only ever happen at positions
whose card was, at pass start, not `Done`. -/
theorem claim_C3 (v : List Card) (ins : List String) (j : Nat) (c : Card)
    (hc : v[j]? = some c) (hd : c.lok = Lok.Done) (h : Option String) (s : Bool) :
    Event.prompt j h s ∉ (questionRun v ins).trace := by
  intro hmem
  obtain ⟨-, c', hc', hnd⟩ := questionGo_prompts ins v 0 [] j h s hmem
  rw [hc] at hc'
  cases hc'
  exact hnd hd

/-- Witness for C3: the `Done` card at index 0 is never prompted in a
concrete run that answers the second card. -/
theorem claim_C3_witness :
    Event.prompt 0 none true ∉
      (questionRun [Card.mk "q1" "a1" none 2, Card.mk "q2" "a2" none 0]
        ["a2"]).trace :=
  claim_C3 [Card.mk "q1" "a1" none 2, Card.mk "q2" "a2" none 0] ["a2"] 0
    (Card.mk "q1" "a1" none 2) (by decide) (by decide) none true

lemma questionGo_shown :
    ∀ (ins : List String) (v : List Card) (i : Nat) (hist : List String)
      (k j : Nat) (h : Option String) (s : Bool),
      (questionGo ins v i hist).trace[k]? = some (Event.prompt j h s) →
      h = (if k = 0 then hist.head? else ins[k - 1]?) ∧ s = shownOf h := by
  intro ins
  induction ins with
  | nil =>
      intro v i hist k j h s hk
      unfold questionGo at hk
      split at hk <;> simp at hk
  | cons raw rest ih =>
      intro v i hist k j h s hk
      unfold questionGo at hk
      dsimp only at hk
      split at hk
      case isTrue hlt =>
        rcases hdp : dispatch v (skipDone v i)
            (v.get ⟨skipDone v i, hlt⟩) (strTrim raw) with ⟨v', i', sig⟩
        rw [hdp] at hk
        cases sig with
        | cont =>
            cases k with
            | zero =>
                simp only [List.getElem?_cons_zero, Option.some_inj] at hk
                obtain ⟨-, rfl, rfl⟩ := Event.prompt.inj hk.symm
                simp
            | succ m =>
                simp only [List.getElem?_cons_succ] at hk
                obtain ⟨hh, hs⟩ := ih v' i' (raw :: hist) m j h s hk
                refine ⟨?_, hs⟩
                cases m with
                | zero => simpa using hh
                | succ m' => simpa using hh
        | exitP =>
            cases k with
            | zero =>
                simp only [List.getElem?_cons_zero, Option.some_inj] at hk
                obtain ⟨-, rfl, rfl⟩ := Event.prompt.inj hk.symm
                simp
            | succ m => simp at hk
        | revise =>
            cases k with
            | zero =>
                simp only [List.getElem?_cons_zero, Option.some_inj] at hk
                obtain ⟨-, rfl, rfl⟩ := Event.prompt.inj hk.symm
                simp
            | succ m => simp at hk
      case isFalse hge =>
        simp at hk

/-- Claim C9, amended: at the `k`-th prompt of a pass the recorded last
history entry is the raw input line consumed at the previous prompt
(none at the first prompt), and the question text is suppressed exactly
when that entry starts with `":h"` or is exactly `":typo"`, `":n"`,
`":num"` or `":togo"` — so an unknown command such as `":hello"` also
suppresses it. -/
theorem claim_C9_amended (v : List Card) (ins : List String) (k j : Nat)
    (h : Option String) (s : Bool)
    (hk : (questionRun v ins).trace[k]? = some (Event.prompt j h s)) :
    (h = if k = 0 then none else ins[k - 1]?) ∧
      (s = false ↔ ∃ he, h = some he ∧ suppress he = true) := by
  obtain ⟨h1, h2⟩ := questionGo_shown ins v 0 [] k j h s hk
  refine ⟨by simpa using h1, ?_⟩
  subst h2
  cases h with
  | none => simp [shownOf]
  | some he => cases hs : suppress he <;> simp [shownOf, hs]

/-- Witness for C9 (amended) at the concrete run whose second prompt
follows the unknown command `":hello"`. -/
theorem claim_C9_witness :
    ((some ":hello" : Option String) =
        if (1 : Nat) = 0 then none else [":hello", "b"][(1 : Nat) - 1]?) ∧
      ((false = false) ↔ ∃ he, (some ":hello" : Option String) = some he ∧
        suppress he = true) :=
  claim_C9_amended [Card.mk "a" "b" none 0] [":hello", "b"] 1 0
    (some ":hello") false (by decide)

/-- Following the spec's words: the non-advancing informational commands
are the help/hint aliases, the progress-query aliases and `:typo`. -/
def specInfoCmd (c : String) : Bool :=
  c == ":h" || c == ":help" || c == ":hint" ||
    c == ":n" || c == ":num" || c == ":togo" || c == ":typo"

/-- Counterexample to C9 as stated: after the unknown command `":hello"`
(which is not a help/hint command, progress query or `:typo`), the next
prompt still suppresses the question text, so suppression does not
happen "exactly when" the previous entry was an informational command. -/
theorem claim_C9_counterexample :
    (questionRun [Card.mk "a" "b" none 0] [":hello", "b"]).trace[1]? =
        some (Event.prompt 0 (some ":hello") false) ∧
      specInfoCmd ":hello" = false := by
  decide

/-- From `lib.rs` line 202: the loop guard counts the `Done` cards of
the deck (`v.iter().filter(|item| item.lok() == Lok::Done).count()`). -/
def doneCount (v : List Card) : Nat :=
  (v.filter (fun item => item.lok == Lok.Done)).length

/-- How a Cards-mode run ends: normal completion (all cards `Done`, the
saved-progress artifact removed), process exit from inside a pass
(`:q`/`:wq`), or a propagated input error. -/
inductive RunRes where
  | finished : List Card → RunRes
  | exited : RunRes
  | errored : RunRes
deriving DecidableEq, Repr

/-- The Cards-mode loop of `run` (`lib.rs` lines 202–210): while the
count of `Done` cards is below the deck length, shuffle (unless disabled
by configuration) and run one pass of the session loop; afterwards
remove the saved progress (`state::rm_prog`), recorded as the
`Event.rmProg` trace event.  Each pass consumes one pair of a shuffle
function (standing for `fastrand::shuffle`) and the input lines the
user types during that pass; exhausting `passes` before completion
models the user never finishing. -/
def runCards (ns : Bool) :
    List ((List Card → List Card) × List String) → List Card → RunRes × List Event
  | [], v =>
      if doneCount v < v.length then (RunRes.errored, [])
      else (RunRes.finished v, [Event.rmProg])
  | (sh, ins) :: rest, v =>
      if doneCount v < v.length then
        let v1 := if ns then v else sh v
        let shTr : List Event := if ns then [] else [Event.shuffleEv]
        let p := questionRun v1 ins
        match p.res with
        | PassEnd.exitProc => (RunRes.exited, shTr ++ p.trace)
        | PassEnd.inputErr => (RunRes.errored, shTr ++ p.trace)
        | _ =>
            let r := runCards ns rest p.deck
            (r.1, shTr ++ p.trace ++ r.2)
      else (RunRes.finished v, [Event.rmProg])

lemma doneCount_le (v : List Card) : doneCount v ≤ v.length :=
  List.length_filter_le _ v

lemma lok_done_iff (c : Card) : c.lok = Lok.Done ↔ threshold ≤ c.counter := by
  unfold Card.lok threshold
  split_ifs with h1 h2
  · simp only [threshold] at *
    constructor
    · intro h
      cases h
    · intro h
      omega
  · simp only [threshold] at h2
    constructor
    · intro h
      cases h
    · intro h
      omega
  · simp only [threshold] at h2
    constructor
    · intro _
      omega
    · intro _
      rfl

lemma doneCount_full (v : List Card) (h : doneCount v = v.length) :
    ∀ c ∈ v, c.lok = Lok.Done := by
  intro c hc
  have := List.filter_length_eq_length.mp h c hc
  simpa using this

/-- Claim C2: the repetition controller's loop runs passes exactly while
the count of `Done` cards is below the deck length; a normal completion
is only ever reached with every card `Done` (counter at or above the
threshold) and removes the saved-progress artifact, and when the guard
fails the run finishes immediately with the removal as its only
event. -/
theorem claim_C2 (ns : Bool)
    (passes : List ((List Card → List Card) × List String)) (v : List Card) :
    (∀ v' tr, runCards ns passes v = (RunRes.finished v', tr) →
        doneCount v' = v'.length ∧
          (∀ c ∈ v', c.lok = Lok.Done ∧ threshold ≤ c.counter) ∧
          Event.rmProg ∈ tr) ∧
      (¬ doneCount v < v.length →
        runCards ns passes v = (RunRes.finished v, [Event.rmProg])) ∧
      (∀ sh ins rest, doneCount v < v.length →
        runCards ns ((sh, ins) :: rest) v =
          (let v1 := if ns then v else sh v
           let shTr : List Event := if ns then [] else [Event.shuffleEv]
           let p := questionRun v1 ins
           match p.res with
           | PassEnd.exitProc => (RunRes.exited, shTr ++ p.trace)
           | PassEnd.inputErr => (RunRes.errored, shTr ++ p.trace)
           | _ =>
               let r := runCards ns rest p.deck
               (r.1, shTr ++ p.trace ++ r.2))) := by
  refine ⟨?_, ?_, ?_⟩
  · induction passes generalizing v with
    | nil =>
        intro v' tr heq
        unfold runCards at heq
        split at heq
        · simp at heq
        case isFalse hge =>
          simp only [Prod.mk.injEq] at heq
          obtain ⟨hfin, rfl⟩ := heq
          obtain rfl := RunRes.finished.inj hfin
          have hle := doneCount_le v
          have hful : doneCount v = v.length := by omega
          refine ⟨hful, fun c hc => ?_, by simp⟩
          have hd := doneCount_full v hful c hc
          exact ⟨hd, (lok_done_iff c).mp hd⟩
    | cons pr rest ih =>
        rcases pr with ⟨sh, ins⟩
        intro v' tr heq
        unfold runCards at heq
        split at heq
        case isTrue hlt =>
          dsimp only at heq
          split at heq
          · simp at heq
          · simp at heq
          · simp only [Prod.mk.injEq] at heq
            obtain ⟨h1, rfl⟩ := heq
            have hr : runCards ns rest
                (questionRun (if ns then v else sh v) ins).deck =
                (RunRes.finished v',
                  (runCards ns rest
                    (questionRun (if ns then v else sh v) ins).deck).2) := by
              rw [← h1]
            obtain ⟨ha, hb, hcm⟩ :=
              ih (questionRun (if ns then v else sh v) ins).deck v' _ hr
            exact ⟨ha, hb, by simp [hcm]⟩
        case isFalse hge =>
          simp only [Prod.mk.injEq] at heq
          obtain ⟨hfin, rfl⟩ := heq
          obtain rfl := RunRes.finished.inj hfin
          have hle := doneCount_le v
          have hful : doneCount v = v.length := by omega
          refine ⟨hful, fun c hc => ?_, by simp⟩
          have hd := doneCount_full v hful c hc
          exact ⟨hd, (lok_done_iff c).mp hd⟩
  · intro hge
    cases passes with
    | nil =>
        unfold runCards
        rw [if_neg hge]
    | cons pr rest =>
        rcases pr with ⟨sh, ins⟩
        unfold runCards
        rw [if_neg hge]
  · intro sh ins rest hlt
    conv_lhs => unfold runCards
    rw [if_pos hlt]

/-- Witness for C2 at a concrete one-card run: one correct answer drives
the card to `Done`, the run finishes and removes the saved progress. -/
theorem claim_C2_witness :
    doneCount [Card.mk "a" "b" none 2] = [Card.mk "a" "b" none 2].length ∧
      (∀ c ∈ [Card.mk "a" "b" none 2],
        c.lok = Lok.Done ∧ threshold ≤ c.counter) ∧
      Event.rmProg ∈ [Event.prompt 0 none true, Event.rmProg] :=
  (claim_C2 true [(fun d => d, ["b"])] [Card.mk "a" "b" none 1]).1
    [Card.mk "a" "b" none 2] [Event.prompt 0 none true, Event.rmProg] (by decide)

/-- Claim C10: if every card is already `Done` when a Cards-mode run
starts, the loop guard fails at once: no shuffle happens, no prompt is
ever issued (the trace holds only the progress removal), the deck is
unchanged and the saved-progress artifact is removed immediately. -/
theorem claim_C10 (ns : Bool)
    (passes : List ((List Card → List Card) × List String)) (v : List Card)
    (h : doneCount v = v.length) :
    runCards ns passes v = (RunRes.finished v, [Event.rmProg]) := by
  have hge : ¬ doneCount v < v.length := by omega
  cases passes with
  | nil =>
      unfold runCards
      rw [if_neg hge]
  | cons pr rest =>
      rcases pr with ⟨sh, ins⟩
      unfold runCards
      rw [if_neg hge]

/-- Witness for C10 at a concrete fully-mastered deck, with passes
available that are never used. -/
theorem claim_C10_witness :
    runCards false [(fun d => d, ["x"])] [Card.mk "a" "b" none 2] =
      (RunRes.finished [Card.mk "a" "b" none 2], [Event.rmProg]) :=
  claim_C10 false [(fun d => d, ["x"])] [Card.mk "a" "b" none 2] (by decide)

/-- From `lib.rs` (`init`, lines 48–64): iterate over the lines of the
file, skip a line whose trimmed form starts with `#` or is empty, and
deserialize every other line, propagating the first deserialization
error.  `Card::deser` lives in the absent `cards` module, so the
deserializer is an opaque parameter. -/
def initLines (deser : String → Except String Card) :
    List String → Except String (List Card)
  | [] => Except.ok []
  | line :: rest =>
      if strStartsWith (strTrim line) "#" || strTrim line == "" then
        initLines deser rest
      else
        match deser line with
        | Except.error e => Except.error e
        | Except.ok c =>
            match initLines deser rest with
            | Except.error e => Except.error e
            | Except.ok cs => Except.ok (c :: cs)

/-- From `lib.rs` (`init`): the `fs::read_to_string(path)?` step is
modelled by an `Except`-valued read result whose error propagates, and
whose success value is the list of lines of the file. -/
def init (readRes : Except String (List String))
    (deser : String → Except String Card) : Except String (List Card) :=
  match readRes with
  | Except.error e => Except.error e
  | Except.ok lines => initLines deser lines

/-- A line is kept by `init` when its trimmed form neither starts with
`#` nor is empty (the negation of the skip condition of the source). -/
def keepLine (line : String) : Bool :=
  !(strStartsWith (strTrim line) "#" || strTrim line == "")

lemma forall₂_exists_of_mem {α β : Type} {R : α → β → Prop} :
    ∀ {l₁ : List α} {l₂ : List β}, List.Forall₂ R l₁ l₂ →
      ∀ a ∈ l₁, ∃ b, R a b := by
  intro l₁ l₂ h
  induction h with
  | nil => simp
  | cons hR hF ih =>
      intro a ha
      rcases List.mem_cons.mp ha with rfl | hmem
      · exact ⟨_, hR⟩
      · exact ih a hmem

lemma initLines_ok_iff (deser : String → Except String Card) :
    ∀ (ls : List String) (cs : List Card),
      initLines deser ls = Except.ok cs ↔
        List.Forall₂ (fun l c => deser l = Except.ok c) (ls.filter keepLine) cs := by
  intro ls
  induction ls with
  | nil =>
      intro cs
      simp [initLines, List.forall₂_nil_left_iff, eq_comm]
  | cons line rest ih =>
      intro cs
      by_cases hk : keepLine line
      · have hcond :
            (strStartsWith (strTrim line) "#" || strTrim line == "") = false := by
          simpa [keepLine] using hk
        rw [List.filter_cons_of_pos hk]
        unfold initLines
        rw [hcond]
        simp only [Bool.false_eq_true, if_false]
        cases hd : deser line with
        | error e =>
            simp only [List.forall₂_cons_left_iff, hd]
            constructor
            · intro h
              cases h
            · rintro ⟨b, u, hb, -, -⟩
              cases hb
        | ok c =>
            cases hrest : initLines deser rest with
            | error e =>
                simp only [List.forall₂_cons_left_iff, hd]
                constructor
                · intro h
                  cases h
                · rintro ⟨b, u, hb, hF, rfl⟩
                  have := (ih u).mpr hF
                  rw [hrest] at this
                  cases this
            | ok cs' =>
                have hF := (ih cs').mp hrest
                simp only [List.forall₂_cons_left_iff, hd, Except.ok.injEq]
                constructor
                · rintro rfl
                  exact ⟨c, cs', rfl, hF, rfl⟩
                · rintro ⟨b, u, hb, hFu, rfl⟩
                  cases hb
                  have : initLines deser rest = Except.ok u := (ih u).mpr hFu
                  rw [hrest] at this
                  cases this
                  rfl
      · have hk' : keepLine line = false := by
          simpa using hk
        have hcond :
            (strStartsWith (strTrim line) "#" || strTrim line == "") = true := by
          simp only [keepLine, Bool.not_eq_false'] at hk'
          exact hk'
        rw [List.filter_cons_of_neg hk]
        unfold initLines
        rw [hcond]
        simp only [if_true]
        exact ih cs

/-- Claim C6: a read failure propagates out of `init` unchanged; a
successful `init` deserializes exactly the lines that are kept (trimmed
form non-empty and not starting with `#`), in file order; and a
deserialization failure on any kept line makes `init` return an error
rather than a deck. -/
theorem claim_C6 (deser : String → Except String Card) (lines : List String)
    (e : String) :
    init (Except.error e) deser = Except.error e ∧
      (∀ cs, init (Except.ok lines) deser = Except.ok cs ↔
        List.Forall₂ (fun l c => deser l = Except.ok c)
          (lines.filter keepLine) cs) ∧
      ((∃ l ∈ lines.filter keepLine, ∃ e2, deser l = Except.error e2) →
        ∃ e3, init (Except.ok lines) deser = Except.error e3) := by
  refine ⟨rfl, fun cs => initLines_ok_iff deser lines cs, ?_⟩
  rintro ⟨l, hl, e2, he2⟩
  cases hres : init (Except.ok lines) deser with
  | error e3 => exact ⟨e3, rfl⟩
  | ok cs =>
      exfalso
      have hF := (initLines_ok_iff deser lines cs).mp hres
      obtain ⟨c, hc⟩ := forall₂_exists_of_mem hF l hl
      rw [he2] at hc
      cases hc

/-- Concrete deserializer used by the C6 witness: it fails on the line
`"bad"` and otherwise produces a card from the line. -/
def deserSample (line : String) : Except String Card :=
  if line == "bad" then Except.error "deser failure"
  else Except.ok (Card.mk line line none 0)

/-- Witness for C6: a read error propagates, and a deck containing a
comment line, a blank line, a good line and the failing line `"bad"`
makes `init` return an error. -/
theorem claim_C6_witness :
    init (Except.error "io") deserSample = Except.error "io" ∧
      ∃ e3, init (Except.ok ["# comment", "  ", "gut", "bad"]) deserSample =
        Except.error e3 :=
  ⟨(claim_C6 deserSample [] "io").1,
    (claim_C6 deserSample ["# comment", "  ", "gut", "bad"] "io").2.2
      ⟨"bad", by decide, "deser failure", rfl⟩⟩

end Crablit
